import Mathlib

/-!
Verification of the wercker build driver (`example.py`).

The embedding below translates the pure parts of the program into Lean:
Python `str` values become `String` (or `List Char` where we must reason
about splitting character by character), Python lists become `List`,
`collections.OrderedDict` becomes an association list with
update-in-place-else-append insertion, and code that raises becomes
`Option`.  Blocking reads from the session queue are modelled by running
the drain loop over the (finite) list of lines that ever arrive; the
loop running past the end of that list models blocking forever.
-/

namespace Wercker

/-! ### Python `str.split(sep)` / `sep.join` on character lists -/
/-- Python `s.split(sep)` for a one-character separator, over the character
list of the string: every occurrence of `sep` separates two (possibly empty)
pieces.  `splitOnChar sep ""` is `[""]`, as in Python. -/
def splitOnChar (sep : Char) : List Char → List (List Char)
  | [] => [[]]
  | c :: cs =>
    if c = sep then [] :: splitOnChar sep cs
    else
      match splitOnChar sep cs with
      | [] => [[c]]
      | p :: ps => (c :: p) :: ps

/-- Python `sep.join(pieces)` for a one-character separator. -/
def joinSep (sep : Char) : List (List Char) → List Char
  | [] => []
  | l :: ls => l ++ (ls.map (fun x => sep :: x)).flatten

/-! ### Step identity (`Step.__init__`)

```python
if '/' in step_id:
  owner, name = step_id.split('/', 2)
  step_id = '%s_%s' % (owner, name)
else:
  owner = 'wercker'
  name = step_id
```

`split('/', 2)` performs at most two splits; unpacking into the pair
`owner, name` raises `ValueError` unless the result has exactly two
elements.  The raising path is modelled by `none`. -/
/-- Python `s.split('/', 2)`: at most two splits, the remainder is kept
joined. -/
def splitSlashMax2 (l : List Char) : List (List Char) :=
  match splitOnChar '/' l with
  | a :: b :: c :: rest => [a, b, joinSep '/' (c :: rest)]
  | parts => parts

/-- `Step.__init__` identity derivation on the reference's characters:
returns `(owner, name, id)`, or `none` when the two-element unpacking of
`split('/', 2)` raises `ValueError`. -/
def stepIdentityCore (l : List Char) : Option (List Char × List Char × List Char) :=
  if '/' ∈ l then
    match splitSlashMax2 l with
    | [owner, name] => some (owner, name, owner ++ '_' :: name)
    | _ => none
  else
    some ("wercker".toList, l, l)

/-- `Step.__init__` identity derivation at the string level. -/
def stepIdentity (ref : String) : Option (String × String × String) :=
  (stepIdentityCore ref.toList).map
    (fun t => (String.mk t.1, String.mk t.2.1, String.mk t.2.2))

/-! ### Script normalization (`ScriptStep._normalize_code`)

```python
code = s.split('\n')
if not code[0].startswith('#!'):
  code.insert(0, '#!/bin/bash -xe')
return '\n'.join(code)
``` -/
def normalizeCode (s : String) : String :=
  let code := splitOnChar '\n' s.toList
  let code :=
    if (['#', '!'].isPrefixOf (code.headD [])) then code
    else "#!/bin/bash -xe".toList :: code
  String.mk (joinSep '\n' code)

/-! ### Env (`collections.OrderedDict` subclass with `to_cmd`)

An `Env` is an insertion-ordered mapping; we embed it as an association
list together with `OrderedDict`'s assignment semantics: assigning to an
existing key updates the value in place (keeping the key's position),
assigning to a fresh key appends the entry at the end. -/
/-- `OrderedDict` assignment `e[k] = v`. -/
def envInsert (e : List (String × String)) (k v : String) :
    List (String × String) :=
  if e.any (fun p => p.1 == k) then
    e.map (fun p => if p.1 == k then (k, v) else p)
  else e ++ [(k, v)]

/-- `collections.OrderedDict(pairs)`: assign every pair in order into an
empty mapping. -/
def envOfList (l : List (String × String)) : List (String × String) :=
  l.foldl (fun e p => envInsert e p.1 p.2) []

/-- `Env.to_cmd`: one line per entry, in mapping order, rendered with the
template `export %s="%s"`. -/
def toCmd (e : List (String × String)) : List String :=
  e.map (fun p => "export " ++ p.1 ++ "=\"" ++ p.2 ++ "\"")

/-- Strips an expected sequence of characters from the front of a list. -/
def stripPref : List Char → List Char → Option (List Char)
  | [], cs => some cs
  | _ :: _, [] => none
  | p :: ps, c :: cs => if c = p then stripPref ps cs else none

/-- Splits `key="value` at the first occurrence of the two-character
pattern `="`, returning the characters before and after it. -/
def splitKV : List Char → Option (List Char × List Char)
  | [] => none
  | [_] => none
  | c :: d :: rest =>
    if c = '=' ∧ d = '"' then some ([], rest)
    else
      match splitKV (d :: rest) with
      | some (k, v) => some (c :: k, v)
      | none => none

/-- Modelled from the spec: re-parsing one serialized shell-export line
(the inverse of `Env.to_cmd`'s template `export %s="%s"`).  The repository
contains no such parser; the spec's round-trip property presumes one. -/
def parseExport (s : String) : Option (String × String) :=
  (stripPref "export ".toList s.toList).bind fun rest =>
    (splitKV rest).bind fun kv =>
      if kv.2.getLastD ' ' = '"' then
        some (String.mk kv.1, String.mk kv.2.dropLast)
      else none

/-! ### Step paths and property resolution (`Step`, `Build` path roots) -/
/-- `os.path.join(a, b)` for two components: an absolute second component
wins; otherwise the components are joined with a single `/`. -/
def pathJoin (a b : String) : String :=
  if b.toList.headD ' ' = '/' then b
  else if a = "" then b
  else if a.toList.getLastD ' ' = '/' then a ++ b
  else a ++ "/" ++ b

/-- `Build.guest_root()`: the fixed read-write working point. -/
def guestRoot : String := "/pipeline"

/-- `Build.report_dir()`. -/
def buildReportDir : String := guestRoot ++ "/report"

/-- `Step.guest_path()`: `os.path.join(build.guest_root(), step.id)`. -/
def guestPath (id : String) : String := pathJoin guestRoot id

/-- `Step.report_dir()`: `os.path.join(build.report_dir(), step.id)`. -/
def stepReportDir (id : String) : String := pathJoin buildReportDir id

/-- `Step.report_numbers_file()`. -/
def reportNumbersFile (id : String) : String :=
  stepReportDir id ++ "/numbers.ini"

/-- `Step.report_message_file()`. -/
def reportMessageFile (id : String) : String :=
  stepReportDir id ++ "/message.txt"

/-- `Step.report_artifacts_dir()`. -/
def reportArtifactsDir (id : String) : String :=
  stepReportDir id ++ "/artifacts"

/-- The key under which `Step._get_properties` stores a resolved property:
`('WERCKER_%s_%s' % (self._name.replace('-', '_'), prop)).upper()`,
modelled character by character (`replace` with a one-character pattern is
a character map; `upper()` maps `Char.toUpper`). -/
def propertyKey (name prop : String) : String :=
  String.mk ((("WERCKER_".toList
    ++ (name.toList.map (fun c => if c = '-' then '_' else c)))
    ++ '_' :: prop.toList).map Char.toUpper)

/-- The claim as stated names the variable
`WERCKER_<STEP_NAME_UPPER>_<PROPERTY_UPPER>`: the step name uppercased
with no hyphen replacement (second definition, following the spec's
words, for comparison with `propertyKey`). -/
def claimedPropertyKey (name prop : String) : String :=
  String.mk ((("WERCKER_".toList ++ name.toList) ++ '_' :: prop.toList).map
    Char.toUpper)

/-- `Step._get_properties`: resolves each property declared in the step
descriptor (the `properties` block of `wercker-step.yml`, in declaration
order) to the explicit value from the step's data when the key is present
there, else the descriptor's `default`, else the empty string, assigning
into an `OrderedDict` under `propertyKey`.  A missing descriptor file or
a descriptor without a `properties` block is the empty descriptor. -/
def getProperties (name : String) (descr : List (String × Option String))
    (data : List (String × String)) : List (String × String) :=
  descr.foldl
    (fun o p =>
      envInsert o (propertyKey name p.1) ((data.lookup p.1).getD (p.2.getD "")))
    []

/-- The fixed step-identity environment entries built in `Step.env()` (a
Python `dict` literal; note `WERCKER_REPORT_NUMBERS_FILE` is bound to the
literal string `'unusued'` in the source, not to
`report_numbers_file()`). -/
def stepEnvFixed (owner name id : String) : List (String × String) :=
  [("WERCKER_STEP_ROOT", guestPath id),
   ("WERCKER_STEP_ID", id),
   ("WERCKER_STEP_OWNER", owner),
   ("WERCKER_STEP_NAME", name),
   ("WERCKER_REPORT_NUMBERS_FILE", "unusued"),
   ("WERCKER_REPORT_MESSAGE_FILE", reportMessageFile id),
   ("WERCKER_REPORT_ARTIFACTS_DIR", reportArtifactsDir id)]

/-- Lexicographic comparison of character lists by code point, modelling
Python string comparison for the ASCII keys compared here. -/
def charListLt : List Char → List Char → Bool
  | [], [] => false
  | [], _ :: _ => true
  | _ :: _, [] => false
  | c :: cs, d :: ds =>
    if c.toNat < d.toNat then true
    else if d.toNat < c.toNat then false
    else charListLt cs ds

/-- Insertion step of a sort on the first component. -/
def insertByKey (p : String × String) :
    List (String × String) → List (String × String)
  | [] => [p]
  | q :: qs =>
    if charListLt p.1.toList q.1.toList then p :: q :: qs
    else q :: insertByKey p qs

/-- Python `sorted(o.items())` for the fixed block, whose keys are
pairwise distinct, so sorting the items is sorting by key. -/
def sortByKey (l : List (String × String)) : List (String × String) :=
  l.foldr insertByKey []

/-- `Step.env()`: sort the fixed block, then assign each resolved
property on top of it, in declaration order. -/
def stepEnv (owner name id : String) (descr : List (String × Option String))
    (data : List (String × String)) : List (String × String) :=
  (getProperties name descr data).foldl (fun e p => envInsert e p.1 p.2)
    (sortByKey (stepEnvFixed owner name id))

/-! ### Build identifier (`Build.id`)

```python
_id = None
def id(self):
  if not self._id:
    self._id = os.environ.get('WERCKER_BUILD_ID', uuid.uuid4().hex)
  return self._id
``` -/
/-- The mutable identifier state of one `Build` instance: `memo` is the
`_id` attribute (`none` is Python `None`), `draws` counts how many times
the identifier expression has been computed (equivalently, how many
values of the `uuid.uuid4().hex` stream have been consumed — Python
evaluates the default-argument expression eagerly whenever the `get`
call runs). -/
structure BuildIdState where
  memo : Option String
  draws : Nat

/-- Python truthiness of `self._id`: both `None` and the empty string are
falsy. -/
def idFalsy : Option String → Bool
  | none => true
  | some s => s == ""

/-- One call of `Build.id()`, threading the instance state.  `env` is the
process environment (fixed across the instance's lifetime) and `uuids`
the stream of `uuid.uuid4().hex` values. -/
def buildIdCall (env : String → Option String) (uuids : Nat → String)
    (st : BuildIdState) : String × BuildIdState :=
  if idFalsy st.memo then
    let v := (env "WERCKER_BUILD_ID").getD (uuids st.draws)
    (v, ⟨some v, st.draws + 1⟩)
  else (st.memo.getD "", st)

/-! ### Session (`_start_recv`, `send_checked`, `recv`)

The background reader turns the raw chunk stream into queued lines; the
foreground `send_checked` drains the queue until it sees its sentinel.
Queues and streams are modelled by the finite list of items that ever
arrive; a drain loop running past the end of that list models the
blocking `self.recv().next()` never returning. -/
/-- Python `str.strip()` over the character list: removes leading and
trailing whitespace. -/
def stripChars (l : List Char) : List Char :=
  ((l.dropWhile Char.isWhitespace).reverse.dropWhile Char.isWhitespace).reverse

/-- Python `str.strip()` at the string level. -/
def pyStrip (s : String) : String := String.mk (stripChars s.toList)

/-- `line.startswith('%s ' % rand_id)` applied to the stripped line, as
in the drain loop of `send_checked`. -/
def sentinelMatch (sentinel line : String) : Bool :=
  (sentinel ++ " ").toList.isPrefixOf (pyStrip line).toList

/-- `line.startswith('%s ' % rand_id)` on the raw line, as the claim
reads (the claim's "line whose prefix is the generated sentinel followed
by a single space"). -/
def sentinelRawMatch (sentinel line : String) : Bool :=
  (sentinel ++ " ").toList.isPrefixOf line.toList

/-- The `send_checked` drain loop over the lines the background reader
ever enqueues after the commands are issued, with `acc` the accumulated
`recv` list.  The generated `uuid.uuid4().hex` is the `sentinel`
parameter.  `none` means the loop never finds the sentinel, i.e. the
call blocks forever. -/
def sendCheckedDrain (sentinel : String) (acc : List String) :
    List String → Option (String × List String)
  | [] => none
  | l :: ls =>
    if l = "" then sendCheckedDrain sentinel acc ls
    else
      if sentinelMatch sentinel l then
        some (String.mk
          ((pyStrip l).toList.drop (sentinel ++ " ").toList.length), acc)
      else sendCheckedDrain sentinel (acc ++ [pyStrip l]) ls

/-- `Session.send_checked`: after issuing the commands and the sentinel
echo, drain the queue until the sentinel line arrives. -/
def sendChecked (sentinel : String) (queue : List String) :
    Option (String × List String) :=
  sendCheckedDrain sentinel [] queue

/-- The claim as stated (second definition following the spec's words,
for comparison with `sendChecked`): the wait stops at the first line
whose prefix is the sentinel followed by a single space, the exit status
is the raw text of that line after the sentinel and its separating
space, and the output is the earlier drained lines, in arrival order,
after trimming and with empty lines discarded. -/
def sendCheckedClaimed (sentinel : String) (queue : List String) :
    Option (String × List String) :=
  match queue.dropWhile (fun l => !(sentinelRawMatch sentinel l)) with
  | [] => none
  | m :: _ =>
    some (String.mk (m.toList.drop (sentinel ++ " ").toList.length),
      ((queue.takeWhile (fun l => !(sentinelRawMatch sentinel l))).filter
        (fun l => !(l == ""))).map pyStrip)

/-- Python `parts[-1]` for a list of lines (empty on the empty list,
which `splitOnChar` never returns). -/
def lastD : List (List Char) → List Char
  | [] => []
  | x :: xs =>
    match xs with
    | [] => x
    | y :: ys => lastD (y :: ys)

/-- One iteration of `_start_recv`'s buffer handling for a received
chunk: append to the pending partial line; if the buffer contains a
newline, split on newlines, enqueue every part but the last
(`parts[:-1]`) and retain the last part (`parts[-1]`) as the new pending
fragment. -/
def processChunk (pending data : List Char) : List Char × List (List Char) :=
  let line := pending ++ data
  if '\n' ∈ line then
    let parts := splitOnChar '\n' line
    (lastD parts, parts.dropLast)
  else (line, [])

/-- The background reader over a finite schedule of socket reads (`none`
models `self.ws.recv()` returning no data, which the loop sleeps
through and retries).  Returns the final pending fragment and every line
enqueued, in queue order. -/
def runRecv (pending : List Char) :
    List (Option (List Char)) → List Char × List (List Char)
  | [] => (pending, [])
  | none :: ds => runRecv pending ds
  | some d :: ds =>
    let r1 := processChunk pending d
    let r2 := runRecv r1.1 ds
    (r2.1, r1.2 ++ r2.2)

theorem splitOnChar_ne_nil (sep : Char) (l : List Char) :
    splitOnChar sep l ≠ [] := by
  induction l with
  | nil => simp [splitOnChar]
  | cons c cs ih =>
    simp only [splitOnChar]
    split
    · simp
    · match h : splitOnChar sep cs with
      | [] => simp
      | p :: ps => simp

theorem joinSep_cons_of_ne_nil (sep : Char) (l : List Char)
    (ls : List (List Char)) (h : ls ≠ []) :
    joinSep sep (l :: ls) = l ++ sep :: joinSep sep ls := by
  match ls with
  | [] => exact absurd rfl h
  | p :: ps => simp [joinSep]

theorem joinSep_splitOnChar (sep : Char) (l : List Char) :
    joinSep sep (splitOnChar sep l) = l := by
  induction l with
  | nil => simp [splitOnChar, joinSep]
  | cons c cs ih =>
    simp only [splitOnChar]
    split
    · rename_i hc
      rw [joinSep_cons_of_ne_nil sep [] _ (splitOnChar_ne_nil sep cs), ih, hc]
      simp
    · match h : splitOnChar sep cs with
      | [] => exact absurd h (splitOnChar_ne_nil sep cs)
      | p :: ps =>
        rw [h] at ih
        simp only [joinSep] at ih ⊢
        simpa using ih

theorem not_mem_of_mem_splitOnChar (sep : Char) (l : List Char) :
    ∀ p ∈ splitOnChar sep l, sep ∉ p := by
  induction l with
  | nil => simp [splitOnChar]
  | cons c cs ih =>
    simp only [splitOnChar]
    split
    · intro p hp
      rcases List.mem_cons.mp hp with h | h
      · simp [h]
      · exact ih p h
    · rename_i hc
      match h : splitOnChar sep cs with
      | [] => exact absurd h (splitOnChar_ne_nil sep cs)
      | p :: ps =>
        rw [h] at ih
        intro q hq
        rcases List.mem_cons.mp hq with h1 | h1
        · subst h1
          intro hmem
          rcases List.mem_cons.mp hmem with h2 | h2
          · exact hc h2.symm
          · exact ih p (List.mem_cons_self p ps) h2
        · exact ih q (List.mem_cons_of_mem p h1)

theorem length_splitOnChar (sep : Char) (l : List Char) :
    (splitOnChar sep l).length = l.count sep + 1 := by
  induction l with
  | nil => simp [splitOnChar]
  | cons c cs ih =>
    simp only [splitOnChar]
    split
    · rename_i hc
      simp [List.count_cons, hc, ih]
    · rename_i hc
      match h : splitOnChar sep cs with
      | [] => exact absurd h (splitOnChar_ne_nil sep cs)
      | p :: ps =>
        rw [h] at ih
        simp only [List.length_cons] at ih ⊢
        have : c ≠ sep := hc
        simp [List.count_cons, this, ih]

theorem stripPref_append (ps cs : List Char) :
    stripPref ps (ps ++ cs) = some cs := by
  induction ps with
  | nil => rfl
  | cons p ps ih => simp [stripPref, ih]

theorem splitKV_append (k w : List Char) (hk : '"' ∉ k) :
    splitKV (k ++ '=' :: '"' :: w) = some (k, w) := by
  induction k with
  | nil => simp [splitKV]
  | cons c k' ih =>
    have hk' : '"' ∉ k' := fun h => hk (List.mem_cons_of_mem c h)
    have hc : c ≠ '"' := fun h => hk (h ▸ List.mem_cons_self c k')
    match k' with
    | [] =>
      simp [splitKV]
    | c2 :: k'' =>
      have hc2 : c2 ≠ '"' := fun h =>
        hk' (h ▸ List.mem_cons_self c2 k'')
      have := ih hk'
      simp only [List.cons_append] at this ⊢
      rw [splitKV]
      simp [hc2, this]

theorem envInsert_of_not_mem (e : List (String × String)) (k v : String)
    (h : k ∉ e.map Prod.fst) : envInsert e k v = e ++ [(k, v)] := by
  unfold envInsert
  rw [if_neg]
  simp only [List.any_eq_true]
  rintro ⟨p, hp, hpe⟩
  exact h (List.mem_map.mpr ⟨p, hp, by simpa using hpe⟩)

theorem foldl_envInsert_append (l : List (String × String)) :
    ∀ e : List (String × String),
      (l.map Prod.fst).Nodup →
      (∀ p ∈ l, p.1 ∉ e.map Prod.fst) →
      l.foldl (fun e p => envInsert e p.1 p.2) e = e ++ l := by
  induction l with
  | nil => simp
  | cons q l' ih =>
    intro e hnd hdisj
    have hq : q.1 ∉ e.map Prod.fst := hdisj q (List.mem_cons_self q l')
    have hnd' : (q.1 :: l'.map Prod.fst).Nodup := by simpa using hnd
    have hhead : q.1 ∉ l'.map Prod.fst := (List.nodup_cons.mp hnd').1
    rw [List.foldl_cons, envInsert_of_not_mem e q.1 q.2 hq]
    rw [ih (e ++ [(q.1, q.2)]) (List.nodup_cons.mp hnd').2]
    · simp
    · intro p hp
      rw [List.map_append, List.mem_append]
      rintro (h1 | h1)
      · exact hdisj p (List.mem_cons_of_mem q hp) h1
      · simp only [List.map_cons, List.map_nil, List.mem_singleton] at h1
        exact hhead (h1 ▸ List.mem_map.mpr ⟨p, hp, rfl⟩)

theorem envOfList_eq_self (l : List (String × String))
    (hnd : (l.map Prod.fst).Nodup) : envOfList l = l := by
  unfold envOfList
  rw [foldl_envInsert_append l [] hnd (by simp)]
  simp

theorem parseExport_roundtrip (k v : String) (hk : '"' ∉ k.toList) :
    parseExport ("export " ++ k ++ "=\"" ++ v ++ "\"") = some (k, v) := by
  unfold parseExport
  have hdata : ("export " ++ k ++ "=\"" ++ v ++ "\"").toList =
      "export ".toList ++ (k.toList ++ '=' :: '"' :: (v.toList ++ ['"'])) := by
    show ("export " ++ k ++ "=\"" ++ v ++ "\"").data =
      "export ".data ++ (k.data ++ '=' :: '"' :: (v.data ++ ['"']))
    simp [String.data_append]
  rw [hdata, stripPref_append, Option.some_bind,
      splitKV_append k.toList _ hk, Option.some_bind]
  simp [List.getLastD_concat, List.dropLast_concat]

theorem envInsert_keys_nodup (e : List (String × String)) (k v : String)
    (h : (e.map Prod.fst).Nodup) : ((envInsert e k v).map Prod.fst).Nodup := by
  unfold envInsert
  split
  · have heq : ((e.map (fun p => if p.1 == k then (k, v) else p)).map Prod.fst)
        = e.map Prod.fst := by
      rw [List.map_map]
      apply List.map_congr_left
      intro p _
      by_cases hpk : p.1 == k
      · simp only [Function.comp, hpk, if_pos]
        exact (eq_of_beq hpk).symm
      · simp [Function.comp, hpk]
    rw [heq]
    exact h
  · rename_i hany
    have hk : k ∉ e.map Prod.fst := by
      intro hmem
      apply hany
      obtain ⟨p, hp, hfst⟩ := List.mem_map.mp hmem
      exact List.any_eq_true.mpr ⟨p, hp, by simp [hfst]⟩
    simp [List.map_append, List.nodup_append, h, hk]

theorem getProperties_keys_nodup (name : String)
    (descr : List (String × Option String))
    (data : List (String × String)) :
    ((getProperties name descr data).map Prod.fst).Nodup := by
  unfold getProperties
  have hgen : ∀ (ds : List (String × Option String))
      (e : List (String × String)), (e.map Prod.fst).Nodup →
      ((ds.foldl (fun o p => envInsert o (propertyKey name p.1)
        ((data.lookup p.1).getD (p.2.getD ""))) e).map Prod.fst).Nodup := by
    intro ds
    induction ds with
    | nil => intro e h; simpa
    | cons q ds' ih =>
      intro e h
      exact ih _ (envInsert_keys_nodup _ _ _ h)
  exact hgen descr [] (by simp)

theorem lookup_self_of_nodup (l : List (String × String)) (k v : String)
    (hnd : (l.map Prod.fst).Nodup) (hmem : (k, v) ∈ l) :
    l.lookup k = some v := by
  induction l with
  | nil => simp at hmem
  | cons q qs ih =>
    have hnd' : (q.1 :: qs.map Prod.fst).Nodup := by simpa using hnd
    rcases List.mem_cons.mp hmem with h | h
    · rw [← h]
      simp [List.lookup]
    · have hne : k ≠ q.1 := by
        intro hkq
        exact (List.nodup_cons.mp hnd').1
          (hkq ▸ List.mem_map.mpr ⟨(k, v), h, rfl⟩)
      have : (k == q.1) = false := beq_false_of_ne hne
      simp only [List.lookup, this]
      exact ih (List.nodup_cons.mp hnd').2 h

theorem getProperties_eq_map (name : String)
    (descr : List (String × Option String)) (data : List (String × String))
    (hnd : (descr.map (fun p => propertyKey name p.1)).Nodup) :
    getProperties name descr data =
      descr.map (fun p =>
        (propertyKey name p.1, (data.lookup p.1).getD (p.2.getD ""))) := by
  unfold getProperties
  rw [← List.foldl_map
    (fun p : String × Option String =>
      (propertyKey name p.1, (data.lookup p.1).getD (p.2.getD "")))
    (fun o (q : String × String) => envInsert o q.1 q.2)]
  apply foldl_envInsert_append
  · rw [List.map_map]
    simpa [Function.comp] using hnd
  · simp

theorem sentinel_space_ne_nil (s : String) : (s ++ " ").toList ≠ [] := by
  intro hcontra
  rw [show (s ++ " ").toList = s.data ++ (" " : String).data from
    String.data_append s " "] at hcontra
  exact absurd (List.append_eq_nil.mp hcontra).2 (by decide)

theorem prefix_of_empty_eq_false (s : String) :
    (s ++ " ").toList.isPrefixOf ([] : List Char) = false := by
  rcases hn : (s ++ " ").toList with _ | ⟨c, cs⟩
  · exact absurd hn (sentinel_space_ne_nil s)
  · rfl

theorem sentinelMatch_empty_eq_false (s : String) :
    sentinelMatch s "" = false := by
  unfold sentinelMatch
  rw [show pyStrip "" = "" from rfl,
      show ("" : String).toList = [] from rfl]
  exact prefix_of_empty_eq_false s

theorem sendCheckedDrain_spec (s : String) (ls : List String) :
    ∀ (acc : List String) (m : String) (rest : List String),
      ls.dropWhile (fun l => !(sentinelMatch s l)) = m :: rest →
      sendCheckedDrain s acc ls =
        some (String.mk ((pyStrip m).toList.drop (s ++ " ").toList.length),
          acc ++ ((ls.takeWhile (fun l => !(sentinelMatch s l))).filter
            (fun l => !(l == ""))).map pyStrip) := by
  induction ls with
  | nil => intro acc m rest h; simp at h
  | cons l ls' ih =>
    intro acc m rest h
    by_cases hpre : sentinelMatch s l = true
    · have hstop : l = m ∧ ls' = rest := by
        rw [List.dropWhile_cons] at h
        simp only [hpre, Bool.not_true, Bool.false_eq_true, if_false] at h
        exact ⟨((List.cons.injEq _ _ _ _).mp h).1,
               ((List.cons.injEq _ _ _ _).mp h).2⟩
      have hlne : l ≠ "" := by
        intro h0
        rw [h0, sentinelMatch_empty_eq_false s] at hpre
        cases hpre
      simp only [sendCheckedDrain, if_neg hlne, hpre, if_true,
        List.takeWhile_cons, Bool.not_true]
      rw [hstop.1]
      simp
    · have hpre' : sentinelMatch s l = false := eq_false_of_ne_true hpre
      have h' : ls'.dropWhile (fun l => !(sentinelMatch s l)) = m :: rest := by
        rw [List.dropWhile_cons] at h
        simpa [hpre'] using h
      by_cases hl : l = ""
      · have hrec := ih acc m rest h'
        rw [hl]
        simp only [sendCheckedDrain, if_pos rfl]
        rw [hrec]
        simp [List.takeWhile_cons, sentinelMatch_empty_eq_false s]
      · have hrec := ih (acc ++ [pyStrip l]) m rest h'
        simp only [sendCheckedDrain, if_neg hl, hpre', Bool.false_eq_true,
          if_false]
        rw [hrec]
        have hbeq : (l == "") = false := beq_false_of_ne hl
        simp [List.takeWhile_cons, hpre', hbeq, List.append_assoc]

theorem sendCheckedDrain_isSome (s : String) (ls : List String) :
    ∀ acc : List String,
      (sendCheckedDrain s acc ls).isSome =
        ls.any (fun l => sentinelMatch s l) := by
  induction ls with
  | nil => intro acc; simp [sendCheckedDrain]
  | cons l ls' ih =>
    intro acc
    by_cases hl : l = ""
    · rw [hl]
      simp [sendCheckedDrain, ih acc, sentinelMatch_empty_eq_false s]
    · by_cases hpre : sentinelMatch s l = true
      · simp [sendCheckedDrain, if_neg hl, hpre]
      · have hpre' : sentinelMatch s l = false := eq_false_of_ne_true hpre
        simp only [sendCheckedDrain, if_neg hl, hpre', Bool.false_eq_true,
          if_false, List.any_cons]
        rw [ih (acc ++ [pyStrip l])]
        simp

theorem lastD_concat (xs : List (List Char)) (a : List Char) :
    lastD (xs ++ [a]) = a := by
  induction xs with
  | nil => rfl
  | cons x xs' ih =>
    match xs' with
    | [] => rfl
    | z :: zs =>
      show lastD ((z :: zs) ++ [a]) = a
      exact ih

theorem dropLast_append_lastD (l : List (List Char)) (h : l ≠ []) :
    l.dropLast ++ [lastD l] = l := by
  obtain ⟨xs, b, hl⟩ : ∃ xs b, l = xs ++ [b] :=
    ⟨l.dropLast, l.getLast h, (List.dropLast_append_getLast h).symm⟩
  subst hl
  rw [List.dropLast_concat, lastD_concat]

theorem lastD_mem (l : List (List Char)) (h : l ≠ []) : lastD l ∈ l := by
  obtain ⟨xs, b, hl⟩ : ∃ xs b, l = xs ++ [b] :=
    ⟨l.dropLast, l.getLast h, (List.dropLast_append_getLast h).symm⟩
  subst hl
  rw [lastD_concat]
  simp

theorem joinSep_append (sep : Char) (xs ys : List (List Char))
    (hx : xs ≠ []) (hy : ys ≠ []) :
    joinSep sep (xs ++ ys) = joinSep sep xs ++ sep :: joinSep sep ys := by
  match xs, ys with
  | x :: xs', y :: ys' =>
    simp only [List.cons_append, joinSep, List.map_append, List.map_cons,
      List.flatten_append, List.flatten_cons]
    simp [List.append_assoc]

theorem runRecv_invariant (chunks : List (Option (List Char))) :
    ∀ pending : List Char, '\n' ∉ pending →
      joinSep '\n' ((runRecv pending chunks).2 ++ [(runRecv pending chunks).1]) =
        pending ++ (chunks.filterMap id).flatten ∧
      (∀ l ∈ (runRecv pending chunks).2, '\n' ∉ l) ∧
      '\n' ∉ (runRecv pending chunks).1 := by
  induction chunks with
  | nil =>
    intro pending hp
    refine ⟨?_, by simp [runRecv], by simpa [runRecv] using hp⟩
    simp [runRecv, joinSep]
  | cons c ds ih =>
    intro pending hp
    match c with
    | none =>
      have := ih pending hp
      simpa [runRecv] using this
    | some d =>
      by_cases hmem : '\n' ∈ pending ++ d
      · have hparts_ne := splitOnChar_ne_nil '\n' (pending ++ d)
        have hjoin : joinSep '\n' (splitOnChar '\n' (pending ++ d)) =
            pending ++ d := joinSep_splitOnChar '\n' (pending ++ d)
        have hlen : (splitOnChar '\n' (pending ++ d)).length =
            (pending ++ d).count '\n' + 1 :=
          length_splitOnChar '\n' (pending ++ d)
        have hcnt : (pending ++ d).count '\n' ≠ 0 := by
          intro h0
          exact (List.count_eq_zero.mp h0) hmem
        have hdrop_ne : (splitOnChar '\n' (pending ++ d)).dropLast ≠ [] := by
          intro h0
          have hd := List.length_dropLast (splitOnChar '\n' (pending ++ d))
          rw [h0] at hd
          simp only [List.length_nil] at hd
          omega
        have hdec := dropLast_append_lastD _ hparts_ne
        have hpend' : '\n' ∉ lastD (splitOnChar '\n' (pending ++ d)) :=
          not_mem_of_mem_splitOnChar '\n' (pending ++ d) _
            (lastD_mem _ hparts_ne)
        obtain ⟨ih1, ih2, ih3⟩ :=
          ih (lastD (splitOnChar '\n' (pending ++ d))) hpend'
        have hchunk : processChunk pending d =
            (lastD (splitOnChar '\n' (pending ++ d)),
             (splitOnChar '\n' (pending ++ d)).dropLast) := by
          simp [processChunk, hmem]
        have hstep :
            runRecv pending (some d :: ds) =
              ((runRecv (lastD (splitOnChar '\n' (pending ++ d))) ds).1,
               (splitOnChar '\n' (pending ++ d)).dropLast ++
                 (runRecv (lastD (splitOnChar '\n' (pending ++ d))) ds).2) := by
          show (let r1 := processChunk pending d
                let r2 := runRecv r1.1 ds
                (r2.1, r1.2 ++ r2.2)) = _
          rw [hchunk]
        have hkey : pending ++ d =
            joinSep '\n' (splitOnChar '\n' (pending ++ d)).dropLast ++
              '\n' :: lastD (splitOnChar '\n' (pending ++ d)) := by
          conv_lhs => rw [← hjoin]
          conv_lhs => rw [← hdec]
          rw [joinSep_append '\n' _ _ hdrop_ne (by simp)]
          simp [joinSep]
        refine ⟨?_, ?_, ?_⟩
        · rw [hstep]
          have hrhs : pending ++ ((some d :: ds).filterMap id).flatten =
              (pending ++ d) ++ (ds.filterMap id).flatten := by
            simp [List.append_assoc]
          rw [hrhs, List.append_assoc,
              joinSep_append '\n' _ _ hdrop_ne (by simp), ih1]
          conv_rhs => rw [hkey]
          simp [List.append_assoc]
        · rw [hstep]
          intro l hl
          rcases List.mem_append.mp hl with h1 | h1
          · exact not_mem_of_mem_splitOnChar '\n' (pending ++ d) l
              (by rw [← hdec]; exact List.mem_append_left _ h1)
          · exact ih2 l h1
        · rw [hstep]
          exact ih3
      · have hstep : runRecv pending (some d :: ds) =
            runRecv (pending ++ d) ds := by
          simp [runRecv, processChunk, hmem]
        obtain ⟨ih1, ih2, ih3⟩ := ih (pending ++ d) hmem
        refine ⟨?_, ?_, ?_⟩
        · rw [hstep, ih1]
          simp [List.append_assoc]
        · rw [hstep]
          exact ih2
        · rw [hstep]
          exact ih3

/-! ### Claim theorems: Env serialization round-trip -/
/-- C6 counterexample: the claim quantifies over every ordered list of
pairs, but with a duplicate key the `OrderedDict` construction collapses
the two entries, so the serialization has one export line instead of two
and re-parsing does not reproduce the original ordered pairs. -/
theorem env_roundtrip_duplicate_key :
    (toCmd (envOfList [("K", "a"), ("K", "b")])).map parseExport =
      [some ("K", "b")] ∧
    (toCmd (envOfList [("K", "a"), ("K", "b")])).map parseExport ≠
      [("K", "a"), ("K", "b")].map some := by
  constructor <;> decide

/-- C6 (amended): for every ordered list of `(key, value)` pairs whose
keys are pairwise distinct and free of the double-quote character,
building an `Env` from the list and serializing yields one shell-export
statement per entry with the value double-quoted, in insertion order, and
re-parsing those export lines reproduces the same ordered pairs. -/
theorem env_serialization_roundtrip (l : List (String × String))
    (hnd : (l.map Prod.fst).Nodup)
    (hq : ∀ p ∈ l, '"' ∉ p.1.toList) :
    (toCmd (envOfList l)).map parseExport = l.map some := by
  rw [envOfList_eq_self l hnd]
  unfold toCmd
  rw [List.map_map]
  apply List.map_congr_left
  intro p hp
  have := parseExport_roundtrip p.1 p.2 (hq p hp)
  simpa using this

/-- Witness for C6: a concrete two-entry environment round-trips. -/
theorem env_serialization_roundtrip_witness :
    (toCmd (envOfList [("A", "1"), ("B", "2")])).map parseExport =
      [("A", "1"), ("B", "2")].map some :=
  env_serialization_roundtrip [("A", "1"), ("B", "2")] (by decide)
    (by decide)

/-! ### Claim theorems: step property resolution and `Step.env()` layout -/
/-- C7 counterexample: for the step name `a-b` (hyphens are routine in
step names, e.g. `wercker-init`) with descriptor property `x` defaulting
to `"d"` and empty step data, the resolved variable is keyed
`WERCKER_A_B_X` — the source replaces hyphens with underscores before
uppercasing — not `WERCKER_A-B_X` as the claim's literal
`WERCKER_<STEP_NAME_UPPER>_<PROPERTY_UPPER>` naming would have it. -/
theorem getProperties_hyphen_name_counterexample :
    getProperties "a-b" [("x", some "d")] [] = [("WERCKER_A_B_X", "d")] ∧
    claimedPropertyKey "a-b" "x" = "WERCKER_A-B_X" ∧
    getProperties "a-b" [("x", some "d")] [] ≠
      [(claimedPropertyKey "a-b" "x", "d")] := by
  refine ⟨?_, ?_, ?_⟩ <;> decide

/-- C7 (amended): for every property `(k, dflt)` declared in the step's
descriptor, the resolved environment binds the key
`WERCKER_<STEP_NAME_UPPER>_<PROPERTY_UPPER>` — with hyphens in the step
name replaced by underscores before uppercasing — to the explicit value
from the step's data when the property key is present there, else the
descriptor's default, else the empty string. -/
theorem getProperties_resolution (name : String)
    (descr : List (String × Option String)) (data : List (String × String))
    (k : String) (dflt : Option String) (hmem : (k, dflt) ∈ descr)
    (hnd : (descr.map (fun p => propertyKey name p.1)).Nodup) :
    (getProperties name descr data).lookup (propertyKey name k) =
      some ((data.lookup k).getD (dflt.getD "")) := by
  rw [getProperties_eq_map name descr data hnd]
  apply lookup_self_of_nodup
  · rw [List.map_map]
    simpa [Function.comp] using hnd
  · exact List.mem_map.mpr ⟨(k, dflt), hmem, rfl⟩

/-- Witness for C7: descriptor property `x` with default `"d"`: empty
step data resolves to `"d"`, and step data `{x: "v"}` resolves to
`"v"`. -/
theorem getProperties_resolution_witness :
    (getProperties "foo" [("x", some "d")] []).lookup
      (propertyKey "foo" "x") = some "d" ∧
    (getProperties "foo" [("x", some "d")] [("x", "v")]).lookup
      (propertyKey "foo" "x") = some "v" :=
  ⟨getProperties_resolution "foo" [("x", some "d")] [] "x" (some "d")
      (by decide) (by decide),
   getProperties_resolution "foo" [("x", some "d")] [("x", "v")] "x"
      (some "d") (by decide) (by decide)⟩

/-- C8 counterexample: the claim states that the fixed step-identity
variables, the report paths among them, are all computed from the step's
paths, but `Step.env()` binds `WERCKER_REPORT_NUMBERS_FILE` to the
literal string `'unusued'`, not to the path `report_numbers_file()`
computes. -/
theorem stepEnv_numbers_file_counterexample :
    (stepEnv "foo" "bar" "foo_bar" [] []).lookup
      "WERCKER_REPORT_NUMBERS_FILE" = some "unusued" ∧
    reportNumbersFile "foo_bar" = "/pipeline/report/foo_bar/numbers.ini" ∧
    (stepEnv "foo" "bar" "foo_bar" [] []).lookup
      "WERCKER_REPORT_NUMBERS_FILE" ≠ some (reportNumbersFile "foo_bar") := by
  refine ⟨?_, ?_, ?_⟩ <;> decide

/-- C8 (amended): `Step.env()` sorts the fixed step-identity block by key
and places it first, then appends the user-resolved properties, unsorted,
in their original declaration order — provided no resolved property key
collides with a fixed key (a colliding property would overwrite the fixed
entry in place instead of being appended). -/
theorem stepEnv_layout (owner name id : String)
    (descr : List (String × Option String)) (data : List (String × String))
    (hdisj : ∀ p ∈ getProperties name descr data,
      p.1 ∉ (sortByKey (stepEnvFixed owner name id)).map Prod.fst) :
    stepEnv owner name id descr data =
      sortByKey (stepEnvFixed owner name id) ++
        getProperties name descr data := by
  unfold stepEnv
  exact foldl_envInsert_append _ _
    (getProperties_keys_nodup name descr data) hdisj

/-- Witness for C8: a concrete step with one declared property. -/
theorem stepEnv_layout_witness :
    stepEnv "foo" "bar" "foo_bar" [("x", some "d")] [] =
      sortByKey (stepEnvFixed "foo" "bar" "foo_bar") ++
        getProperties "bar" [("x", some "d")] [] :=
  stepEnv_layout "foo" "bar" "foo_bar" [("x", some "d")] [] (by decide)

/-! ### Claim theorems: step identity and script normalization -/
/-- C4: for the reference `"foo/bar"` the constructed Step has owner
`"foo"`, name `"bar"` and id `"foo_bar"`; for the separator-free reference
`"bar"` the owner is `"wercker"`, the name `"bar"` and the id `"bar"`. -/
theorem stepIdentity_derivation :
    stepIdentity "foo/bar" = some ("foo", "bar", "foo_bar") ∧
    stepIdentity "bar" = some ("wercker", "bar", "bar") := by
  constructor <;> rfl

theorem stepIdentityCore_isSome_iff (l : List Char) :
    (stepIdentityCore l).isSome = true ↔ l.count '/' ≤ 1 := by
  unfold stepIdentityCore
  by_cases h : '/' ∈ l
  · have hlen := length_splitOnChar '/' l
    have hpos : l.count '/' ≠ 0 := by
      simpa [List.count_eq_zero] using h
    match hc : l.count '/' with
    | 0 => exact absurd hc hpos
    | 1 =>
      rw [hc] at hlen
      obtain ⟨a, b, hab⟩ := List.length_eq_two.mp hlen
      simp [h, splitSlashMax2, hab]
    | n + 2 =>
      rw [hc] at hlen
      rcases hp : splitOnChar '/' l with _ | ⟨a, _ | ⟨b, _ | ⟨c, rest⟩⟩⟩ <;>
        rw [hp] at hlen <;> simp at hlen
      simp [h, splitSlashMax2, hp]
  · have h0 : l.count '/' = 0 := List.count_eq_zero.mpr h
    simp [h, h0]

/-- C10: constructing a Step succeeds exactly when the reference contains
at most one `/` separator; with two or more separators the two-element
unpacking of `split('/', 2)` raises. -/
theorem stepIdentity_isSome_iff_count (ref : String) :
    (stepIdentity ref).isSome = true ↔ ref.toList.count '/' ≤ 1 := by
  rw [← stepIdentityCore_isSome_iff ref.toList]
  unfold stepIdentity
  simp [Option.isSome_map]

/-- C5: script normalization prepends `#!/bin/bash -xe` when the first
line of the code does not begin with `#!`, and returns the input unchanged
when it does. -/
theorem normalizeCode_spec (s : String) :
    normalizeCode s =
      if ['#', '!'].isPrefixOf ((splitOnChar '\n' s.toList).headD []) then s
      else "#!/bin/bash -xe\n" ++ s := by
  by_cases hcond :
      ['#', '!'].isPrefixOf ((splitOnChar '\n' s.toList).headD []) = true
  · rw [if_pos hcond]
    show String.mk (joinSep '\n'
      (if ['#', '!'].isPrefixOf ((splitOnChar '\n' s.toList).headD [])
       then splitOnChar '\n' s.toList
       else "#!/bin/bash -xe".toList :: splitOnChar '\n' s.toList)) = s
    rw [if_pos hcond, joinSep_splitOnChar]
    rfl
  · rw [if_neg hcond]
    show String.mk (joinSep '\n'
      (if ['#', '!'].isPrefixOf ((splitOnChar '\n' s.toList).headD [])
       then splitOnChar '\n' s.toList
       else "#!/bin/bash -xe".toList :: splitOnChar '\n' s.toList)) =
      "#!/bin/bash -xe\n" ++ s
    rw [if_neg hcond, joinSep_cons_of_ne_nil _ _ _ (splitOnChar_ne_nil _ _),
        joinSep_splitOnChar]
    apply String.ext
    have hlit : "#!/bin/bash -xe\n".data = "#!/bin/bash -xe".data ++ ['\n'] := by
      decide
    simp [String.data_append, hlit, String.toList]

/-! ### Claim theorems: session sentinel correlation -/
/-- C2: for every raw chunk sequence delivered to the background reader,
the reader accumulates a pending partial line, splits whenever a line
terminator is present, enqueues every completed line in arrival order
and retains the trailing incomplete fragment: joining the enqueued lines
and the final fragment with newlines reconstructs exactly the
concatenation of all received chunks (so no line is dropped, duplicated
or reordered — queue order equals the order the characters were
produced), and no enqueued line, nor the retained fragment, contains a
terminator. -/
theorem runRecv_preserves_lines (chunks : List (Option (List Char))) :
    joinSep '\n' ((runRecv [] chunks).2 ++ [(runRecv [] chunks).1]) =
      (chunks.filterMap id).flatten ∧
    (∀ l ∈ (runRecv [] chunks).2, '\n' ∉ l) ∧
    '\n' ∉ (runRecv [] chunks).1 := by
  have h := runRecv_invariant chunks [] (by simp)
  simpa using h

/-- C1 counterexample: with sentinel `aabb` and the arriving lines
`[" aabb 1", "aabb 0"]`, the claim as stated says the wait ends at the
first line whose raw prefix is `aabb ` (the second line), returning exit
status `"0"` and output `["aabb 1"]`; but the code strips each line
before matching, so the first line (raw prefix a space) already matches
and the call returns exit status `"1"` with empty output. -/
theorem sendChecked_trim_counterexample :
    sendChecked "aabb" [" aabb 1", "aabb 0"] = some ("1", []) ∧
    sendCheckedClaimed "aabb" [" aabb 1", "aabb 0"] =
      some ("0", ["aabb 1"]) ∧
    sendChecked "aabb" [" aabb 1", "aabb 0"] ≠
      sendCheckedClaimed "aabb" [" aabb 1", "aabb 0"] := by
  refine ⟨?_, ?_, ?_⟩ <;> decide

/-- C1 (amended): for every command sequence and every incoming line
stream containing a line whose STRIPPED form has the sentinel followed
by a single space as a prefix, `send_checked` returns
`(exit_status, output)` where the wait stops at the first such line,
`exit_status` is the text after the sentinel and its separating space in
that line's stripped form, and `output` is the stripped forms of the
drained lines before it, in arrival order, with lines that are empty
before stripping discarded. -/
theorem sendChecked_spec (s m : String) (ls rest : List String)
    (h : ls.dropWhile (fun l => !(sentinelMatch s l)) = m :: rest) :
    sendChecked s ls =
      some (String.mk ((pyStrip m).toList.drop (s ++ " ").toList.length),
        ((ls.takeWhile (fun l => !(sentinelMatch s l))).filter
          (fun l => !(l == ""))).map pyStrip) := by
  have h0 := sendCheckedDrain_spec s ls [] m rest h
  simpa [sendChecked] using h0

/-- Witness for C1: sentinel `ab`, arriving lines `["x", "ab 0"]`. -/
theorem sendChecked_spec_witness :
    sendChecked "ab" ["x", "ab 0"] = some ("0", ["x"]) := by
  have h := sendChecked_spec "ab" "ab 0" ["x", "ab 0"] [] (by decide)
  exact h

/-- C3 counterexample: the stream `["aabb "]` contains a line whose raw
prefix is the sentinel `aabb` followed by a single space, yet the drain
loop strips the line to `aabb` before matching, never sees the sentinel
prefix and blocks forever — so termination is not equivalent to a
sentinel-prefixed line arriving. -/
theorem sendChecked_blocks_counterexample :
    sentinelRawMatch "aabb" "aabb " = true ∧
    sendChecked "aabb" ["aabb "] = none := by
  constructor <;> decide

/-- C3 (amended): `send_checked` terminates exactly when the incoming
line stream contains a line whose STRIPPED form has the sentinel
followed by a single space as a prefix; otherwise the drain loop blocks
forever, and no timeout configuration is consulted by the wait (the
embedded loop takes no timeout input at all). -/
theorem sendChecked_terminates_iff (s : String) (ls : List String) :
    (sendChecked s ls).isSome = true ↔
      ∃ l ∈ ls, sentinelMatch s l = true := by
  rw [sendChecked, sendCheckedDrain_isSome s ls []]
  exact List.any_eq_true

/-! ### Claim theorems: build identifier -/
/-- C9 counterexample: with `WERCKER_BUILD_ID` present in the environment
but equal to the empty string, the memo check `if not self._id` treats
the stored identifier as unset, so the identifier expression is computed
again on every call — after two calls it has been computed twice, not at
most once (though the returned value stays the same). -/
theorem buildId_recomputed_counterexample :
    (buildIdCall (fun k => if k == "WERCKER_BUILD_ID" then some "" else none)
      (fun _ => "aaaa")
      (buildIdCall
        (fun k => if k == "WERCKER_BUILD_ID" then some "" else none)
        (fun _ => "aaaa") ⟨none, 0⟩).2).2.draws = 2 := by
  decide

/-- C9 (amended): under a fixed process environment, calling `id()` again
returns the identical value, the first call on a fresh instance takes the
identifier from `WERCKER_BUILD_ID` if present else generates it freshly,
and the identifier is computed at most once — provided the environment
does not map `WERCKER_BUILD_ID` to the empty string, which the memo
check treats as unset. -/
theorem buildId_stable (env : String → Option String) (uuids : Nat → String)
    (st : BuildIdState) (h : ∀ n, uuids n ≠ "") :
    (buildIdCall env uuids (buildIdCall env uuids st).2).1 =
      (buildIdCall env uuids st).1 ∧
    (buildIdCall env uuids ⟨none, 0⟩).1 =
      (env "WERCKER_BUILD_ID").getD (uuids 0) ∧
    (env "WERCKER_BUILD_ID" ≠ some "" →
      (buildIdCall env uuids
        (buildIdCall env uuids ⟨none, 0⟩).2).2.draws ≤ 1) := by
  have idFalsy_some : ∀ s : String, idFalsy (some s) = (s == "") :=
    fun s => rfl
  refine ⟨?_, ?_, ?_⟩
  · cases hm : idFalsy st.memo with
    | false => simp [buildIdCall, hm]
    | true =>
      cases he : env "WERCKER_BUILD_ID" with
      | none =>
        have hne := beq_false_of_ne (h st.draws)
        simp [buildIdCall, hm, he, idFalsy_some, hne]
      | some x =>
        by_cases hx : x = ""
        · subst hx
          simp [buildIdCall, hm, he, idFalsy_some]
        · simp [buildIdCall, hm, he, idFalsy_some, beq_false_of_ne hx]
  · simp [buildIdCall, idFalsy]
  · intro he
    cases hev : env "WERCKER_BUILD_ID" with
    | none =>
      have hne := beq_false_of_ne (h 0)
      simp [buildIdCall, idFalsy, hev, idFalsy_some, hne]
    | some x =>
      have hx : x ≠ "" := by
        intro hx0
        exact he (by rw [hev, hx0])
      simp [buildIdCall, idFalsy, hev, idFalsy_some, beq_false_of_ne hx]

/-- Witness for C9: a concrete environment without `WERCKER_BUILD_ID` and
a concrete uuid stream. -/
theorem buildId_stable_witness :
    (buildIdCall (fun _ => none) (fun _ => "a")
      (buildIdCall (fun _ => none) (fun _ => "a") ⟨none, 0⟩).2).1 =
      (buildIdCall (fun _ => none) (fun _ => "a") ⟨none, 0⟩).1 ∧
    (buildIdCall (fun _ => none) (fun _ => "a") ⟨none, 0⟩).1 =
      ((fun _ : String => (none : Option String)) "WERCKER_BUILD_ID").getD
        ((fun _ : Nat => "a") 0) ∧
    ((fun _ : String => (none : Option String)) "WERCKER_BUILD_ID" ≠
        some "" →
      (buildIdCall (fun _ => none) (fun _ => "a")
        (buildIdCall (fun _ => none) (fun _ => "a")
          ⟨none, 0⟩).2).2.draws ≤ 1) :=
  buildId_stable (fun _ => none) (fun _ => "a") ⟨none, 0⟩
    (fun _ => (by decide : ("a" : String) ≠ ""))

end Wercker

